import Mathlib

/-!
Shallow embedding of the dense linear-algebra kernel (numerical_table /
det / matrix / linear_equations) of the `math` repository, and proofs
checking the specification's claims against it.

Conventions of the embedding:
* the element type `T` is modelled by `ℚ` (the repository instantiates the
  templates with `double`; `ℚ` is the exact-arithmetic stand-in, as the
  claims are about algebraic structure, not rounding);
* `size_t` values are `ℕ`; where the source relies on unsigned wraparound
  (the `--row` decrement on index 0) the wraparound modulo `2^64` is made
  explicit;
* `std::optional<T>` is `Option T`;
* a function whose C++ execution can throw (`std::optional::value()` on an
  empty optional, a throwing constructor) or run into undefined behaviour /
  a division with no finite result returns one more `Option` layer: `none`
  means "this call does not return normally"; `some r` means the call
  returns `r`.
* member functions that mutate `*this` return the new object value.
-/

namespace CppMath

/-- The modulus of `size_t` arithmetic. -/
def SZ : ℕ := 2 ^ 64

/-- Models the `--i` decrement of a `size_t` variable: subtraction wraps
modulo `2^64`, so decrementing `0` yields `2^64 - 1`. -/
def szSub1 (n : ℕ) : ℕ := (n + (SZ - 1)) % SZ

/-- `math::numerical_table<T>`: a dense M×N table, column-major backing
store (`_data[column * _M + row]` after the 1-based indices are
decremented). -/
structure Table (α : Type) where
  M : ℕ
  N : ℕ
  data : List α
deriving DecidableEq

/-- Class invariant maintained by every C++ constructor: the backing store
holds exactly `M * N` elements. -/
def Table.wf (t : Table ℚ) : Prop := t.data.length = t.M * t.N

/-- The `numerical_table(M, N, data)` constructor: throws
`std::invalid_argument` when `M == 0` or `N == 0` (modelled as `none`),
otherwise copies `data` and resizes it to `M * N` elements (truncating, or
padding with value-initialized `T{} = 0`). -/
def tableMk (M N : ℕ) (data : List ℚ) : Option (Table ℚ) :=
  if M = 0 ∨ N = 0 then none
  else some ⟨M, N, data.take (M * N) ++ List.replicate (M * N - data.length) 0⟩

/-- `numerical_table::get_element(row, column)`. The source checks only
`row > _M or column > _N`; then it decrements both `size_t` indices (0
wraps to `2^64 - 1`) and reads `_data[column * _M + row]`. Outer `none`:
the vector subscript is out of bounds (undefined behaviour in C++).
Inner layer: the returned `std::optional`. -/
def get_element (t : Table ℚ) (row col : ℕ) : Option (Option ℚ) :=
  if row > t.M ∨ col > t.N then some none
  else
    match t.data.get? ((szSub1 col * t.M + szSub1 row) % SZ) with
    | some v => some (some v)
    | none => none

/-- `numerical_table::set_element(i, j, value)`, with the same structure as
`get_element`: upper-bound check only, wrapped decrement, then a vector
write. Outer `none` = out-of-bounds write (undefined behaviour); otherwise
the resulting table (`some t` with `t` unchanged models the no-op). -/
def set_element (t : Table ℚ) (i j : ℕ) (v : ℚ) : Option (Table ℚ) :=
  if i > t.M ∨ j > t.N then some t
  else
    let idx := (szSub1 j * t.M + szSub1 i) % SZ
    if idx < t.data.length then some { t with data := t.data.set idx v }
    else none

/-- Internal accessor used when embedding the algorithms: the element read
`_data[(j-1) * _M + (i-1)]` for 1-based in-range `i, j`, where it agrees
with `get_element` (see `get_element_in_range`). Out-of-range reads
default to `0`. -/
def elem (t : Table ℚ) (i j : ℕ) : ℚ :=
  t.data.getD ((j - 1) * t.M + (i - 1)) 0

/-- Internal unguarded element write `_data[(j-1) * _M + (i-1)] = v`. -/
def setElem (t : Table ℚ) (i j : ℕ) (v : ℚ) : Table ℚ :=
  { t with data := t.data.set ((j - 1) * t.M + (i - 1)) v }

/-- `set_element` restricted to well-defined executions: the source's guard
(`i > _M or j > _N` is a no-op) followed by the write. At every use site
below, `i, j ≥ 1`, where this agrees with `set_element`
(see `set_element_in_range`). -/
def set_elementG (t : Table ℚ) (i j : ℕ) (v : ℚ) : Table ℚ :=
  if i > t.M ∨ j > t.N then t else setElem t i j v

/-- `numerical_table::get_row(row)`: `none` when `row > _M`, else the list
`[*get_element(row, 1), …, *get_element(row, N)]`. -/
def get_rowI (t : Table ℚ) (r : ℕ) : List ℚ :=
  (List.range' 1 t.N).map (fun c => elem t r c)

/-- Guarded `get_row`, returning the `std::optional`. -/
def get_row (t : Table ℚ) (r : ℕ) : Option (List ℚ) :=
  if r > t.M then none else some (get_rowI t r)

/-- `numerical_table::get_column(column)`. -/
def get_columnI (t : Table ℚ) (c : ℕ) : List ℚ :=
  (List.range' 1 t.M).map (fun r => elem t r c)

/-- Guarded `get_column`, returning the `std::optional`. -/
def get_column (t : Table ℚ) (c : ℕ) : Option (List ℚ) :=
  if c > t.N then none else some (get_columnI t c)

/-- `numerical_table::set_row(row, values)`: no-op when `row > _M` or when
`values.size() != _N`; otherwise `set_element(row, i, values[i-1])` for
`i = 1..N`. -/
def set_row (t : Table ℚ) (r : ℕ) (vals : List ℚ) : Table ℚ :=
  if r > t.M then t
  else if vals.length ≠ t.N then t
  else (List.range' 1 t.N).foldl (fun acc c => set_elementG acc r c (vals.getD (c - 1) 0)) t

/-- `numerical_table::set_column(column, values)`. The source's first guard
reads `if (column > get_M()) return;` — the column index is compared with
the ROW count `_M`, not with `_N` (`set_row` uses `row > get_M()` and
`values.size() != get_N()`; this function uses `column > get_M()` and
`values.size() != get_M()`). -/
def set_column (t : Table ℚ) (c : ℕ) (vals : List ℚ) : Table ℚ :=
  if c > t.M then t
  else if vals.length ≠ t.M then t
  else (List.range' 1 t.M).foldl (fun acc r => set_elementG acc r c (vals.getD (r - 1) 0)) t

/-- `numerical_table::swap_row(i, j)`: no-op when `i > _M or j > _M`; else
saves row `i`, writes row `j`'s contents (read before any modification)
into row `i`, and the saved contents into row `j`. -/
def swap_row (t : Table ℚ) (i j : ℕ) : Table ℚ :=
  if i > t.M ∨ j > t.M then t
  else
    let line := get_rowI t i
    let rowj := get_rowI t j
    set_row (set_row t i rowj) j line

/-! ### Vector helpers (`math::sequence`) -/

/-- `sequence::operator*(s1, k)`: scalar multiple of a sequence. -/
def seqMul (s : List ℚ) (k : ℚ) : List ℚ := s.map (fun a => a * k)

/-- `sequence::operator+(s1, s2)`: `none` when the sizes differ, otherwise
the element-wise sum. -/
def seqAdd (a b : List ℚ) : Option (List ℚ) :=
  if a.length ≠ b.length then none else some (a.zipWith (· + ·) b)

/-- `sequence::dot(left, right)` on equal-length inputs (every use site
below passes a row and a column of matching dimension, where the source's
size guard cannot fire): sum of the products. -/
def dotI (a b : List ℚ) : ℚ := (a.zipWith (· * ·) b).sum

/-! ### The determinant type (`math::det<T>`) -/

/-- `math::det<T>` is a `numerical_table` constrained to be square; the
class stores only the table member `_nt`. -/
abbrev Det := Table ℚ

/-- `det::get_N()`: the order, read as `_nt.get_M()`. -/
def detN (d : Det) : ℕ := d.M

/-- The `det(N, data)` constructor: builds the underlying `N × N` table. -/
def detMk (N : ℕ) (data : List ℚ) : Option Det := tableMk N N data

/-- The `det(N, {T{}})` expression used internally by `m_i_j`, `det()` and
the solver: an `N × N` zero-filled determinant (its use sites have
`N ≥ 1`, so the constructor cannot throw). -/
def detMkZero (N : ℕ) : Det := ⟨N, N, List.replicate (N * N) 0⟩

/-- `math::inverse_number`: given the iterator range `[first, index)` (the
list `pre`) and the element `*index` (the value `v`), counts the earlier
elements `a` with `cmp(v, a)`, i.e. `v < a` under `std::less`. -/
def inverse_number (pre : List ℕ) (v : ℕ) : ℕ :=
  (pre.filter (fun a => decide (v < a))).length

/-- The loop of `math::elements_inverse_number`: `pre` is the prefix
already passed (`[first, tfirst)`), `rest` the remaining elements; each
step adds `inverse_number` of the current element over its prefix. -/
def einvAux (pre rest : List ℕ) : ℕ :=
  match rest with
  | [] => 0
  | x :: xs => inverse_number pre x + einvAux (pre ++ [x]) xs

/-- `math::elements_inverse_number`: total number of inversions of the
sequence (0 for an empty range; otherwise the loop starts at the second
element). -/
def elements_inverse_number (l : List ℕ) : ℕ :=
  match l with
  | [] => 0
  | x :: xs => einvAux [x] xs

/-- Fueled enumeration of the permutations of `l` in lexicographic order
(for `l` sorted increasing): every element `y` of `l` in order, followed by
each permutation of `l.erase y`. Called with `fuel = l.length`, this models
the `do { … } while (std::next_permutation(…))` loop of
`general_calculate`, whose body runs exactly once per permutation of the
initially sorted `indices`, in lexicographic order. -/
def permsLexAux : ℕ → List ℕ → List (List ℕ)
  | 0, _ => [[]]
  | _ + 1, [] => [[]]
  | fuel + 1, x :: xs =>
    (x :: xs).flatMap (fun y => (permsLexAux fuel ((x :: xs).erase y)).map (fun σ => y :: σ))

/-- The permutations of `l` in lexicographic order (for sorted `l`). -/
def permsLex (l : List ℕ) : List (List ℕ) := permsLexAux l.length l

/-- The element selection of one Leibniz term: the pairs
`(index, indices[index - 1])` for `index = 1..N`. -/
def selPairs (N : ℕ) (σ : List ℕ) : List (ℕ × ℕ) :=
  (List.range' 1 N).map (fun i => (i, σ.getD (i - 1) 0))

/-- The inner loop of `general_calculate`: starting from `acc` (the sign
`±1`), multiply the selected elements in index order, short-circuiting the
whole term to `0` as soon as a selected element equals `0`. -/
def prodSel (d : Det) (acc : ℚ) : List (ℕ × ℕ) → ℚ
  | [] => acc
  | (i, j) :: rest => if elem d i j = 0 then 0 else prodSel d (acc * elem d i j) rest

/-- The sign computed by `general_calculate` from the inversion count of
the current permutation: `+1` for an even count, `-1` for odd. -/
def signOf (σ : List ℕ) : ℚ := if elements_inverse_number σ % 2 = 0 then 1 else -1

/-- `det::general_calculate()`: for order 1 the single element; otherwise
the do/while loop over all permutations of `{1..N}` (lexicographic,
starting from `iota`-initialized `indices`), accumulating the signed,
short-circuited products. -/
def general_calculate (d : Det) : ℚ :=
  if detN d = 1 then elem d 1 1
  else
    (permsLex (List.range' 1 (detN d))).foldl
      (fun acc σ => acc + prodSel d (signOf σ) (selPairs (detN d) σ)) 0

/-- The zero-pivot branch of `det::elimination()` for pivot row `r1`: when
`(r1, r1)` is zero, the source scans `r2 = r1+1 .. N` testing
`get_element(r1, r2) != 0` — the entry in pivot ROW `r1`, column `r2` —
and swaps rows `r1` and `r2` at the first hit (note the `break`). -/
def pivotFix (t : Det) (r1 : ℕ) : Det :=
  if elem t r1 r1 = 0 then
    match (List.range' (r1 + 1) (detN t - r1)).find? (fun r2 => decide (elem t r1 r2 ≠ 0)) with
    | some r2 => swap_row t r1 r2
    | none => t
  else t

/-- The row-replacement loop of `det::elimination()` below pivot `r1`:
`row_r2 ← row_r1 · (−a_{r2,r1}/a_{r1,r1}) + row_r2` for `r2 = r1+1 .. N`
(run only when the pivot is nonzero, so the division is by a nonzero
value). The `.value()` unwraps of `get_row` and of the sequence sum cannot
throw here: both addends have length `N`. -/
def elimStepRows (t : Det) (r1 : ℕ) : Det :=
  (List.range' (r1 + 1) (detN t - r1)).foldl
    (fun acc r2 =>
      set_row acc r2
        ((seqAdd (seqMul (get_rowI acc r1) (-(elem acc r2 r1) / elem acc r1 r1))
          (get_rowI acc r2)).getD []))
    t

/-- One iteration of the outer loop of `det::elimination()`: zero-pivot
fix-up, then `continue` if the pivot is still zero, else eliminate below. -/
def elimLoop (t : Det) (r1 : ℕ) : Det :=
  let t1 := pivotFix t r1
  if elem t1 r1 r1 = 0 then t1 else elimStepRows t1 r1

/-- `det::elimination()`: no-op for order 1; otherwise the outer loop over
pivot rows `r1 = 1 .. N-1`. -/
def elimination (d : Det) : Det :=
  if detN d = 1 then d
  else (List.range' 1 (detN d - 1)).foldl elimLoop d

/-- `det::elimination_calculate()`: for order 1 the single element;
otherwise run `elimination()` on a copy and return the product of the
diagonal. -/
def elimination_calculate (d : Det) : ℚ :=
  if detN d = 1 then elem d 1 1
  else
    let tmp := elimination d
    (List.range' 1 (detN d)).foldl (fun acc i => acc * elem tmp i i) 1

/-- The minor construction of `det::m_i_j(i, j)` (run when the guard
passes): the `(N-1)`-order determinant built by copying every row except
`i` with entry `j` erased (`line.erase(line.begin() + (j-1))`), rows below
`i` shifting up by one. -/
def mijBody (d : Det) (i j : ℕ) : Det :=
  (List.range' 1 (detN d)).foldl
    (fun acc idx =>
      if idx = i then acc
      else
        let line := (get_rowI d idx).eraseIdx (j - 1)
        if idx < i then set_row acc idx line else set_row acc (idx - 1) line)
    (detMkZero (detN d - 1))

/-- The guard of `det::m_i_j(i, j)`: `none` exactly when `i` or `j` is
outside `[1, N]` or `N == 1`, else the minor. -/
def m_i_j (d : Det) (i j : ℕ) : Option Det :=
  if i < 1 ∨ i > detN d ∨ j < 1 ∨ j > detN d ∨ detN d = 1 then none
  else some (mijBody d i j)

/-! ### The matrix type (`math::matrix<T> : public numerical_table<T>`) -/

/-- The square copy built by `matrix::det()` when the matrix is square:
`det<T> result(M, {T{}})` followed by `result.set_row(i, get_row(i))` for
every row. -/
def detOf (m : Table ℚ) : Det :=
  (List.range' 1 m.M).foldl (fun acc i => set_row acc i (get_rowI m i)) (detMkZero m.M)

/-- `matrix::det()`: `none` when the matrix is not square, else the
determinant copy. -/
def matrix_det (m : Table ℚ) : Option Det :=
  if m.M ≠ m.N then none else some (detOf m)

/-- The cell writes performed by `matrix::adjoint()`'s workers, one unit of
work per `(i, j)`; each unit reads the shared determinant snapshot `tdet`
and writes `m_i_j(i, j).value().general_calculate()` to its own cell of
the result. The units touch pairwise disjoint cells of `res`, so the
concurrent execution is equivalent to this sequential fold; `none` models
the `value()` throw on an absent minor. -/
def adjointAux (tdet : Det) (res : Table ℚ) : List (ℕ × ℕ) → Option (Table ℚ)
  | [] => some res
  | (r, c) :: rest =>
    match m_i_j tdet r c with
    | none => none
    | some mm => adjointAux tdet (set_elementG res r c (general_calculate mm)) rest

/-- The row-major list of all cell coordinates `(i, j)`,
`i = 1..M`, `j = 1..N`. -/
def cellPairs (M N : ℕ) : List (ℕ × ℕ) :=
  (List.range' 1 M).flatMap (fun i => (List.range' 1 N).map (fun j => (i, j)))

/-- `matrix::adjoint()`: `std::nullopt` (inner `none`) for a non-square or
order-1 matrix; otherwise the zero-initialized result with every cell
overwritten by the evaluated minor `m_i_j(i, j)` of the determinant
snapshot. -/
def adjoint (m : Table ℚ) : Option (Option (Table ℚ)) :=
  if m.M ≠ m.N then some none
  else if m.M = 1 ∨ m.N = 1 then some none
  else
    match matrix_det m with
    | none => none
    | some tdet =>
      (adjointAux tdet ⟨m.M, m.N, List.replicate (m.M * m.N) 0⟩ (cellPairs m.M m.N)).map some

/-- `matrix::operator*(t)` for a scalar `t`: `std::nullopt` when `t == 0`,
otherwise every row scaled through `set_row(i, get_row(i) * t)`. -/
def matrix_scalar_mul (m : Table ℚ) (t : ℚ) : Option (Table ℚ) :=
  if t = 0 then none
  else some ((List.range' 1 m.M).foldl (fun acc i => set_row acc i (seqMul (get_rowI acc i) t)) m)

/-- `matrix::inverse()`: returns `std::nullopt` when `det()` is absent
(non-square); otherwise evaluates `adjoint().value()` — which throws for an
order-1 square matrix (outer `none`) — and returns
`adjoint_matrix * (1 / T(det))`. There is no zero test on the determinant
value: when it is `0` the source divides one by zero (outer `none`: with
`T = double` this yields `±inf` and a present garbage matrix, with an exact
element type no finite result exists). -/
def matrix_inverse (m : Table ℚ) : Option (Option (Table ℚ)) :=
  match matrix_det m with
  | none => some none
  | some vdet =>
    match adjoint m with
    | none => none
    | some none => none
    | some (some adj) =>
      let dv := general_calculate vdet
      if dv = 0 then none
      else some (matrix_scalar_mul adj (1 / dv))

/-- `matrix::operator*(right)`: `std::nullopt` on a dimension mismatch,
otherwise each result cell is the dot product of the matching row and
column. -/
def matrix_mul (m1 m2 : Table ℚ) : Option (Table ℚ) :=
  if m1.N ≠ m2.M then none
  else some
    ((cellPairs m1.M m2.N).foldl
      (fun acc p => set_elementG acc p.1 p.2 (dotI (get_rowI m1 p.1) (get_columnI m2 p.2)))
      ⟨m1.M, m2.N, List.replicate (m1.M * m2.N) 0⟩)

/-! ### The linear-equation system (`math::linear_equations<T>`) -/

/-- `math::linear_equations<T>`: the augmented table `_data` (columns
`1..N-1` coefficients, column `N` constants) and the solution vector `_x`. -/
structure LinearEquations where
  data : Table ℚ
  x : List ℚ
deriving DecidableEq

/-- The default constructor `linear_equations()`: member-initializes
`_data{1, 0, {T(1), T(0)}}`, i.e. a table with `M = 1` and `N = 0`. -/
def linear_equations_default : Option LinearEquations :=
  (tableMk 1 0 [1, 0]).map (fun t => ⟨t, []⟩)

/-- `linear_equations::calculate_inverse()`: the inverse-matrix solve path.
Early return when `M ≤ 1`; otherwise builds the coefficient matrix (zero
`M × (N-1)` matrix whose columns are filled through the inherited
`set_column`) and the constants column, computes
`(ceofficient.inverse().value() * constant).value()` and stores its first
column into `_x`. Every unguarded `.value()` and the division inside
`inverse()` can fail; `none` models those non-returning executions. -/
def calculate_inverse (le : LinearEquations) : Option LinearEquations :=
  if le.data.M ≤ 1 then some le
  else
    match tableMk le.data.M (le.data.N - 1) [0] with
    | none => none
    | some coeff0 =>
      match get_column le.data le.data.N with
      | none => none
      | some constCol =>
        match tableMk le.data.M 1 constCol with
        | none => none
        | some constM =>
          let coeff := (List.range' 1 (le.data.N - 1)).foldl
            (fun acc i => set_column acc i ((get_column le.data i).getD [])) coeff0
          match matrix_inverse coeff with
          | none => none
          | some none => none
          | some (some inv) =>
            match matrix_mul inv constM with
            | none => none
            | some p =>
              match get_column p 1 with
              | none => none
              | some sol => some { le with x := sol }

/-- `linear_equations::x_n(n)`: returns an empty optional when
`n >= _x.size()`; otherwise reads `_x[n-1]` — for `n == 0` the `size_t`
index wraps to `2^64 - 1` and the read is out of bounds (outer `none`). -/
def x_n (le : LinearEquations) (n : ℕ) : Option (Option ℚ) :=
  if n ≥ le.x.length then some none
  else
    match le.x.get? (szSub1 n) with
    | some v => some (some v)
    | none => none

/-! ### Specification-side definitions

These follow the wording of the claims (not the source), for the claims
that compare the code against a described mathematical value. -/

/-- Inversion count as the claim describes it: the number of pairs
`(a, b)` with `a` before `b` in index order whose element at `b`'s
position compares less than the element at `a`'s position. -/
def inversionCount : List ℕ → ℕ
  | [] => 0
  | x :: xs => xs.countP (fun y => decide (y < x)) + inversionCount xs

/-- One term of the claim's Leibniz expansion for permutation `σ`: sign
`+1`/`-1` by the parity of the inversion count, times the product of the
selected elements `(i, σ(i))`, the term being `0` when any selected
element equals the additive identity. -/
def leibnizTerm (d : Det) (σ : List ℕ) : ℚ :=
  (if inversionCount σ % 2 = 0 then (1 : ℚ) else -1) *
    (if (selPairs (detN d) σ).any (fun p => decide (elem d p.1 p.2 = 0)) then 0
     else ((selPairs (detN d) σ).map (fun p => elem d p.1 p.2)).prod)

/-- The claim's determinant value: the single element for `N = 1`,
otherwise the sum of the signed products over all permutations of
`{1..N}` (`List.permutations` enumerates each permutation of the nodup
list `[1, …, N]` exactly once). -/
def leibnizSpec (d : Det) : ℚ :=
  if detN d = 1 then elem d 1 1
  else (((List.range' 1 (detN d)).permutations).map (leibnizTerm d)).sum

/-- The claim's value of cofactor `(i, j)`: the minor with sign
`(−1)^(i+j)`, evaluated by `general_calculate`. -/
def cofactorValue (d : Det) (i j : ℕ) : Option ℚ :=
  (m_i_j d i j).map (fun mm => (-1 : ℚ) ^ (i + j) * general_calculate mm)

/-! ### Concrete inputs used by the counterexamples and evaluations -/

/-- The order-2 determinant with column-major data `{0, 1, 1, 0}`: rows
`(0 1; 1 0)`. -/
def dSwap : Det := ⟨2, 2, [0, 1, 1, 0]⟩

/-- The order-2 determinant with rows `(0 1; 0 2)`: its pivot column 1 is
entirely zero, but its pivot row has a nonzero entry to the right. -/
def dZeroCol : Det := ⟨2, 2, [0, 0, 1, 2]⟩

/-- The 2×2 matrix with rows `(1 2; 3 4)` (column-major data
`{1, 3, 2, 4}`). -/
def mA : Table ℚ := ⟨2, 2, [1, 3, 2, 4]⟩

/-- The singular 2×2 all-ones matrix. -/
def mOnes : Table ℚ := ⟨2, 2, [1, 1, 1, 1]⟩

/-- A 3×3 table with column-major data `1..9` (so the cell `(i, j)` holds
`(j-1)*3 + i`). -/
def t33 : Table ℚ := ⟨3, 3, [1, 2, 3, 4, 5, 6, 7, 8, 9]⟩

/-- A 2×3 table (fewer rows than columns), column-major data `1..6`. -/
def t23 : Table ℚ := ⟨2, 3, [1, 2, 3, 4, 5, 6]⟩

/-- The augmented system `x + y = 1`, `x + y = 2`: two equations, singular
2×2 coefficient matrix, constants column `(1, 2)`. -/
def leSingular : LinearEquations := ⟨⟨2, 3, [1, 1, 1, 1, 1, 2]⟩, []⟩

/-- A solver state whose solution vector holds the two unknowns `3`
and `4`. -/
def leSolved : LinearEquations := ⟨⟨2, 3, [1, 0, 0, 1, 3, 4]⟩, [3, 4]⟩

/-- The adjoint of the 2×2 matrix `(1 2; 3 4)` as the code computes it:
its `(i, j)` cell is the UNSIGNED minor `m_i_j(i, j)`. -/
def mAdjA : Table ℚ := ⟨2, 2, [4, 2, 3, 1]⟩

/-! ### Generic helper lemmas -/

/-- Accumulating additions in a left fold equal the starting value plus the
sum of the mapped list. -/
theorem foldl_add_eq_sum (f : List ℕ → ℚ) (l : List (List ℕ)) (a : ℚ) :
    l.foldl (fun acc σ => acc + f σ) a = a + (l.map f).sum := by
  induction l generalizing a with
  | nil => simp
  | cons x xs ih => simp [List.foldl_cons, ih, add_assoc]

/-- The short-circuiting product loop equals: zero if some selected element
is zero, otherwise the accumulator times the plain product. -/
theorem prodSel_eq (d : Det) (ps : List (ℕ × ℕ)) (acc : ℚ) :
    prodSel d acc ps =
      if ps.any (fun p => decide (elem d p.1 p.2 = 0)) then 0
      else acc * (ps.map (fun p => elem d p.1 p.2)).prod := by
  induction ps generalizing acc with
  | nil => simp [prodSel]
  | cons p rest ih =>
    obtain ⟨i, j⟩ := p
    rw [prodSel]
    by_cases h : elem d i j = 0
    · simp [h]
    · rw [if_neg h, ih, List.any_cons, List.map_cons, List.prod_cons]
      have hd : (decide (elem d i j = 0) || rest.any fun q => decide (elem d q.1 q.2 = 0))
          = rest.any fun q => decide (elem d q.1 q.2 = 0) := by simp [h]
      rw [hd]
      by_cases ha : (rest.any fun q => decide (elem d q.1 q.2 = 0)) = true
      · simp [ha]
      · simp only [Bool.not_eq_true] at ha
        simp [ha, mul_assoc]

/-- Summing an if-count over a list is `countP`. -/
theorem sum_map_ite_eq_countP (p : ℕ → Bool) (l : List ℕ) :
    (l.map (fun y => if p y then 1 else 0)).sum = l.countP p := by
  induction l with
  | nil => simp
  | cons x xs ih =>
    by_cases h : p x <;> simp [List.countP_cons, h, ih, Nat.add_comm]

/-- `inverse_number` over an extended prefix: the new last element `x`
contributes one extra inversion exactly when `v < x`. -/
theorem inverse_number_append (pre : List ℕ) (x v : ℕ) :
    inverse_number (pre ++ [x]) v = inverse_number pre v + (if v < x then 1 else 0) := by
  unfold inverse_number
  rw [List.filter_append]
  by_cases h : v < x <;> simp [h]

/-- Summed `inverse_number` over an extended prefix: the extension by `x`
adds one count for every later element below `x`. -/
theorem sum_inverse_number_append (pre : List ℕ) (x : ℕ) (xs : List ℕ) :
    (xs.map (inverse_number (pre ++ [x]))).sum
      = (xs.map (inverse_number pre)).sum + xs.countP (fun y => decide (y < x)) := by
  induction xs with
  | nil => simp
  | cons z zs ih =>
    simp only [List.map_cons, List.sum_cons, ih, inverse_number_append, List.countP_cons]
    by_cases h : z < x <;> simp [h] <;> omega

/-- The prefix-walking inversion loop, split into the inversions between
the prefix and the rest plus the inversions inside the rest. -/
theorem einvAux_eq (l pre : List ℕ) :
    einvAux pre l = (l.map (inverse_number pre)).sum + inversionCount l := by
  induction l generalizing pre with
  | nil => simp [einvAux, inversionCount]
  | cons x xs ih =>
    simp only [einvAux, ih (pre ++ [x]), sum_inverse_number_append, inversionCount,
      List.map_cons, List.sum_cons]
    omega

/-- The iterator-based inversion counter of the source equals the claim's
inversion count (number of pairs in wrong relative order). -/
theorem elements_inverse_number_eq (l : List ℕ) :
    elements_inverse_number l = inversionCount l := by
  cases l with
  | nil => simp [elements_inverse_number, inversionCount]
  | cons x xs =>
    have h1 : inverse_number [x] = fun y => if decide (y < x) then 1 else 0 := by
      funext y
      unfold inverse_number
      by_cases h : y < x <;> simp [h]
    rw [elements_inverse_number, einvAux_eq, h1,
      sum_map_ite_eq_countP (fun y => decide (y < x)) xs]
    show List.countP (fun y => decide (y < x)) xs + inversionCount xs = inversionCount (x :: xs)
    rw [inversionCount]

/-- Membership in the fueled lexicographic enumeration: exactly the
permutations of the input list. -/
theorem mem_permsLexAux (fuel : ℕ) (l : List ℕ) (hlen : l.length = fuel) (σ : List ℕ) :
    σ ∈ permsLexAux fuel l ↔ List.Perm σ l := by
  induction fuel generalizing l σ with
  | zero =>
    have hl : l = [] := List.length_eq_zero.mp hlen
    subst hl
    simp only [permsLexAux, List.mem_singleton]
    exact ⟨fun h => h ▸ List.Perm.refl [], fun h => List.perm_nil.mp h⟩
  | succ fuel ih =>
    match l with
    | [] => simp at hlen
    | x :: xs =>
      simp only [permsLexAux, List.mem_flatMap, List.mem_map]
      constructor
      · rintro ⟨y, hy, τ, hτ, rfl⟩
        have hlen2 : ((x :: xs).erase y).length = fuel := by
          rw [List.length_erase_of_mem hy, hlen]
          omega
        have hperm := (ih _ hlen2 τ).mp hτ
        exact List.cons_perm_iff_perm_erase.mpr ⟨hy, hperm⟩
      · intro hperm
        match σ, hperm with
        | [], hperm => exact absurd (List.perm_nil.mp hperm.symm) (by simp)
        | y :: τ, hperm =>
          obtain ⟨hy, hτ⟩ := List.cons_perm_iff_perm_erase.mp hperm
          have hlen2 : ((x :: xs).erase y).length = fuel := by
            rw [List.length_erase_of_mem hy, hlen]
            omega
          exact ⟨y, hy, τ, (ih _ hlen2 τ).mpr hτ, rfl⟩

/-- The fueled lexicographic enumeration of a duplicate-free list has no
duplicate entries. -/
theorem nodup_permsLexAux (fuel : ℕ) (l : List ℕ) (hlen : l.length = fuel) (hnd : l.Nodup) :
    (permsLexAux fuel l).Nodup := by
  induction fuel generalizing l with
  | zero =>
    have hl : l = [] := List.length_eq_zero.mp hlen
    subst hl
    simp [permsLexAux]
  | succ fuel ih =>
    match l with
    | [] => simp at hlen
    | x :: xs =>
      rw [permsLexAux, List.nodup_flatMap]
      refine ⟨fun y hy => ?_, ?_⟩
      · refine (List.nodup_map_iff ?_).mpr ?_
        · intro a b hab
          exact List.cons_injective hab
        · have hlen2 : ((x :: xs).erase y).length = fuel := by
            rw [List.length_erase_of_mem hy, hlen]
            omega
          exact ih _ hlen2 (hnd.erase y)
      · refine List.Pairwise.imp ?_ hnd
        intro a b hab
        intro σ hσa hσb
        obtain ⟨τa, _, rfl⟩ := List.mem_map.mp hσa
        obtain ⟨τb, _, hba⟩ := List.mem_map.mp hσb
        exact hab (List.head_eq_of_cons_eq hba.symm ▸ rfl)

/-- The source's lexicographic permutation enumeration is a permutation of
Mathlib's `List.permutations`: both enumerate every rearrangement of a
duplicate-free list exactly once. -/
theorem permsLex_perm_permutations (l : List ℕ) (hnd : l.Nodup) :
    List.Perm (permsLex l) l.permutations := by
  refine (List.perm_ext_iff_of_nodup (nodup_permsLexAux _ _ rfl hnd)
    (List.nodup_permutations l hnd)).mpr ?_
  intro σ
  rw [mem_permsLexAux _ _ rfl, List.mem_permutations]

/-! ### Table lemmas: dimension/invariant preservation, cell reads after
writes -/

/-- A fold preserves any property each step preserves. -/
theorem foldl_preserves {β : Type} (P : Table ℚ → Prop) (g : Table ℚ → β → Table ℚ)
    (h : ∀ t b, P t → P (g t b)) (l : List β) (t : Table ℚ) (ht : P t) :
    P (l.foldl g t) := by
  induction l generalizing t with
  | nil => exact ht
  | cons b rest ih => exact ih _ (h t b ht)

/-- `set_elementG` only rewrites the backing store: dimensions and the
length invariant are untouched. -/
theorem set_elementG_preserves (t : Table ℚ) (i j : ℕ) (v : ℚ) :
    (set_elementG t i j v).M = t.M ∧ (set_elementG t i j v).N = t.N ∧
      (set_elementG t i j v).data.length = t.data.length := by
  rw [set_elementG]
  split
  · exact ⟨rfl, rfl, rfl⟩
  · exact ⟨rfl, rfl, by simp [setElem]⟩

/-- `set_row` preserves dimensions and the length invariant. -/
theorem set_row_preserves (t : Table ℚ) (r : ℕ) (vals : List ℚ) :
    (set_row t r vals).M = t.M ∧ (set_row t r vals).N = t.N ∧
      (set_row t r vals).data.length = t.data.length := by
  rw [set_row]
  split
  · exact ⟨rfl, rfl, rfl⟩
  split
  · exact ⟨rfl, rfl, rfl⟩
  exact foldl_preserves
    (fun t2 => t2.M = t.M ∧ t2.N = t.N ∧ t2.data.length = t.data.length) _
    (fun t2 c h2 => by
      obtain ⟨e1, e2, e3⟩ := set_elementG_preserves t2 r c (vals.getD (c - 1) 0)
      exact ⟨e1.trans h2.1, e2.trans h2.2.1, e3.trans h2.2.2⟩)
    _ _ ⟨rfl, rfl, rfl⟩

/-- The flat column-major index of an in-range 1-based cell is inside the
backing store. -/
theorem flatIdx_lt (M N i j : ℕ) (hi1 : 1 ≤ i) (hi2 : i ≤ M) (hj1 : 1 ≤ j) (hj2 : j ≤ N) :
    (j - 1) * M + (i - 1) < M * N := by
  have h1 : (j - 1) * M + (i - 1) < (j - 1) * M + M := by omega
  have h2 : (j - 1) * M + M = j * M := by
    have hj3 : j - 1 + 1 = j := by omega
    calc (j - 1) * M + M = (j - 1 + 1) * M := by rw [Nat.succ_mul]
      _ = j * M := by rw [hj3]
  calc (j - 1) * M + (i - 1) < j * M := h2 ▸ h1
    _ ≤ N * M := Nat.mul_le_mul_right M hj2
    _ = M * N := Nat.mul_comm N M

/-- Distinct in-range 1-based cells have distinct flat indices. -/
theorem flatIdx_inj (M i j i' j' : ℕ) (hi1 : 1 ≤ i) (hi2 : i ≤ M) (hi1' : 1 ≤ i')
    (hi2' : i' ≤ M) (hj1 : 1 ≤ j) (hj1' : 1 ≤ j')
    (h : (j - 1) * M + (i - 1) = (j' - 1) * M + (i' - 1)) : i = i' ∧ j = j' := by
  have hM : 0 < M := by omega
  have hmod : ∀ a b : ℕ, b < M → ((a * M + b) % M = b ∧ (a * M + b) / M = a) := by
    intro a b hb
    constructor
    · rw [Nat.add_comm, Nat.add_mul_mod_self_right, Nat.mod_eq_of_lt hb]
    · rw [Nat.add_comm, Nat.add_mul_div_right _ _ hM, Nat.div_eq_of_lt hb, Nat.zero_add]
  obtain ⟨hm1, hd1⟩ := hmod (j - 1) (i - 1) (by omega)
  obtain ⟨hm2, hd2⟩ := hmod (j' - 1) (i' - 1) (by omega)
  constructor
  · have := hm1.symm.trans (h ▸ hm2)
    omega
  · have := hd1.symm.trans (h ▸ hd2)
    omega

/-- Reading a cell after an unguarded in-range write: the written value at
the written cell, the old value elsewhere. -/
theorem elem_setElem (t : Table ℚ) (ht : t.wf) (i j i' j' : ℕ) (v : ℚ)
    (hi1 : 1 ≤ i) (hi2 : i ≤ t.M) (hj1 : 1 ≤ j) (hj2 : j ≤ t.N)
    (hi1' : 1 ≤ i') (hi2' : i' ≤ t.M) (hj1' : 1 ≤ j') (_hj2' : j' ≤ t.N) :
    elem (setElem t i j v) i' j' = if i' = i ∧ j' = j then v else elem t i' j' := by
  rw [elem, setElem]
  simp only
  by_cases heq : i' = i ∧ j' = j
  · obtain ⟨hh1, hh2⟩ := heq
    subst hh1
    subst hh2
    rw [if_pos ⟨rfl, rfl⟩, List.getD_eq_getElem?_getD, List.getElem?_set_self, Option.getD_some]
    rw [ht]
    exact flatIdx_lt t.M t.N i' j' hi1 hi2 hj1 hj2
  · rw [if_neg heq]
    have hne : (j - 1) * t.M + (i - 1) ≠ (j' - 1) * t.M + (i' - 1) := by
      intro hcontra
      exact heq ⟨(flatIdx_inj t.M i j i' j' hi1 hi2 hi1' hi2' hj1 hj1' hcontra).1.symm,
        (flatIdx_inj t.M i j i' j' hi1 hi2 hi1' hi2' hj1 hj1' hcontra).2.symm⟩
    rw [List.getD_eq_getElem?_getD, List.getElem?_set_ne hne, ← List.getD_eq_getElem?_getD,
      ← elem]

/-- `set_elementG` at an in-range cell performs the write. -/
theorem set_elementG_in_range (t : Table ℚ) (i j : ℕ) (v : ℚ) (hi2 : i ≤ t.M)
    (hj2 : j ≤ t.N) : set_elementG t i j v = setElem t i j v := by
  rw [set_elementG, if_neg (by omega)]

/-- Reading a cell after a fold of guarded in-range writes whose written
values depend only on the coordinates: the value of `F` on every written
cell, the old value elsewhere. -/
theorem elem_foldl_set (F : ℕ × ℕ → ℚ) (ps : List (ℕ × ℕ)) (t : Table ℚ) (ht : t.wf)
    (hps : ∀ p ∈ ps, 1 ≤ p.1 ∧ p.1 ≤ t.M ∧ 1 ≤ p.2 ∧ p.2 ≤ t.N)
    (i j : ℕ) (hi1 : 1 ≤ i) (hi2 : i ≤ t.M) (hj1 : 1 ≤ j) (hj2 : j ≤ t.N) :
    elem (ps.foldl (fun acc p => set_elementG acc p.1 p.2 (F p)) t) i j
      = if (i, j) ∈ ps then F (i, j) else elem t i j := by
  induction ps generalizing t with
  | nil => simp
  | cons q rest ih =>
    obtain ⟨hq1, hq2, hq3, hq4⟩ := hps q (List.mem_cons_self q rest)
    rw [List.foldl_cons, set_elementG_in_range t q.1 q.2 (F q) hq2 hq4]
    have ht2 : (setElem t q.1 q.2 (F q)).wf := by
      rw [Table.wf, setElem]
      simp [List.length_set]
      exact ht
    have hdm : (setElem t q.1 q.2 (F q)).M = t.M := rfl
    have hdn : (setElem t q.1 q.2 (F q)).N = t.N := rfl
    rw [ih (setElem t q.1 q.2 (F q)) ht2
      (fun p hp => by rw [hdm, hdn]; exact hps p (List.mem_cons_of_mem q hp))
      (hdm ▸ hi2) (hdn ▸ hj2)]
    by_cases hmem : (i, j) ∈ rest
    · simp [hmem]
    · rw [if_neg hmem,
        elem_setElem t ht q.1 q.2 i j (F q) hq1 hq2 hq3 hq4 hi1 hi2 hj1 hj2]
      by_cases heq : i = q.1 ∧ j = q.2
      · have : (i, j) = q := by
          obtain ⟨h1, h2⟩ := heq
          exact Prod.ext h1 h2
        simp [this, heq]
      · have : (i, j) ≠ q := by
          intro hcontra
          exact heq ⟨congrArg Prod.fst hcontra, congrArg Prod.snd hcontra⟩
        simp [this, heq, hmem]

/-- Membership in the row-major coordinate enumeration. -/
theorem mem_cellPairs (M N i j : ℕ) :
    (i, j) ∈ cellPairs M N ↔ 1 ≤ i ∧ i ≤ M ∧ 1 ≤ j ∧ j ≤ N := by
  simp only [cellPairs, List.mem_flatMap, List.mem_map, List.mem_range'_1, Prod.mk.injEq]
  constructor
  · rintro ⟨a, ⟨ha1, ha2⟩, b, ⟨hb1, hb2⟩, rfl, rfl⟩
    omega
  · rintro ⟨h1, h2, h3, h4⟩
    exact ⟨i, ⟨h1, by omega⟩, j, ⟨h3, by omega⟩, rfl, rfl⟩

/-- When every minor in the worklist is present, the adjoint workers
complete and their writes amount to a fold of in-place cell writes. -/
theorem adjointAux_eq (tdet : Det) (ps : List (ℕ × ℕ)) (res : Table ℚ)
    (hsome : ∀ p ∈ ps, m_i_j tdet p.1 p.2 = some (mijBody tdet p.1 p.2)) :
    adjointAux tdet res ps
      = some (ps.foldl (fun acc p => set_elementG acc p.1 p.2
          (general_calculate (mijBody tdet p.1 p.2))) res) := by
  induction ps generalizing res with
  | nil => rfl
  | cons q rest ih =>
    obtain ⟨r, c⟩ := q
    have h1 := hsome (r, c) (List.mem_cons_self _ _)
    rw [adjointAux, h1, List.foldl_cons]
    exact ih _ (fun p hp => hsome p (List.mem_cons_of_mem _ hp))

/-- The determinant copy built by `matrix::det()` is square of order `M`
and well-formed. -/
theorem detOf_dims (m : Table ℚ) :
    (detOf m).M = m.M ∧ (detOf m).N = m.M ∧ (detOf m).wf := by
  have h := foldl_preserves
    (fun t2 => t2.M = m.M ∧ t2.N = m.M ∧ t2.data.length = m.M * m.M)
    (fun acc i => set_row acc i (get_rowI m i))
    (fun t2 i h2 => by
      obtain ⟨e1, e2, e3⟩ := set_row_preserves t2 i (get_rowI m i)
      exact ⟨e1.trans h2.1, e2.trans h2.2.1, e3.trans h2.2.2⟩)
    (List.range' 1 m.M) (detMkZero m.M) (by simp [detMkZero])
  rw [detOf]
  exact ⟨h.1, h.2.1, by rw [Table.wf, h.1, h.2.1]; exact h.2.2⟩

/-- C3 (amended): for every square matrix of order `N ≥ 2`, `adjoint()`
returns a present `N × N` matrix whose cell `(i, j)` holds
`m_i_j(i, j).general_calculate()` — the UNSIGNED minor of the matrix's
determinant, with no `(−1)^(i+j)` factor and no transpose. -/
theorem adjoint_unsigned_minors (m : Table ℚ) (i j : ℕ) (hsq : m.M = m.N) (h2 : 2 ≤ m.M)
    (hi1 : 1 ≤ i) (hi2 : i ≤ m.M) (hj1 : 1 ≤ j) (hj2 : j ≤ m.N) :
    ∃ res, adjoint m = some (some res) ∧ res.M = m.M ∧ res.N = m.N ∧
      (m_i_j (detOf m) i j).map general_calculate = some (elem res i j) := by
  obtain ⟨hdM, hdN, hdwf⟩ := detOf_dims m
  have hmsome : ∀ p ∈ cellPairs m.M m.N,
      m_i_j (detOf m) p.1 p.2 = some (mijBody (detOf m) p.1 p.2) := by
    rintro ⟨a, b⟩ hp
    obtain ⟨hp1, hp2, hp3, hp4⟩ := (mem_cellPairs m.M m.N a b).mp hp
    rw [m_i_j, if_neg]
    rw [detN, hdM]
    omega
  rw [adjoint, if_neg (by omega), if_neg (by omega), matrix_det, if_neg (by omega)]
  dsimp only
  rw [adjointAux_eq (detOf m) _ _ hmsome, Option.map_some']
  set base : Table ℚ := ⟨m.M, m.N, List.replicate (m.M * m.N) 0⟩ with hbase
  have hbwf : base.wf := by simp [Table.wf, hbase]
  have hdims := foldl_preserves
    (fun t2 => t2.M = m.M ∧ t2.N = m.N)
    (fun acc p => set_elementG acc p.1 p.2 (general_calculate (mijBody (detOf m) p.1 p.2)))
    (fun t2 p h2 => by
      obtain ⟨e1, e2, _⟩ :=
        set_elementG_preserves t2 p.1 p.2 (general_calculate (mijBody (detOf m) p.1 p.2))
      exact ⟨e1.trans h2.1, e2.trans h2.2⟩)
    (cellPairs m.M m.N) base ⟨rfl, rfl⟩
  refine ⟨_, rfl, hdims.1, hdims.2, ?_⟩
  rw [hmsome (i, j) ((mem_cellPairs m.M m.N i j).mpr ⟨hi1, hi2, hj1, hj2⟩), Option.map_some']
  rw [elem_foldl_set (fun p => general_calculate (mijBody (detOf m) p.1 p.2))
    (cellPairs m.M m.N) base hbwf
    (fun p hp => by
      obtain ⟨a, b⟩ := p
      obtain ⟨hp1, hp2, hp3, hp4⟩ := (mem_cellPairs m.M m.N a b).mp hp
      exact ⟨hp1, hp2, hp3, hp4⟩)
    i j hi1 hi2 hj1 hj2]
  rw [if_pos ((mem_cellPairs m.M m.N i j).mpr ⟨hi1, hi2, hj1, hj2⟩)]

/-- C1: `general_calculate()` returns the Leibniz-expansion value of the
determinant — the single element for order 1, and otherwise the sum over
all permutations of `{1..N}` (the source enumerates them in lexicographic
order via `std::next_permutation`) of the signed product of the selected
elements `(i, σ(i))`, the sign being `+1` for an even inversion count and
`-1` for an odd one, with a term short-circuited to `0` as soon as a
selected element equals the additive identity. -/
theorem general_calculate_is_leibniz (d : Det) : general_calculate d = leibnizSpec d := by
  rw [general_calculate, leibnizSpec]
  by_cases h1 : detN d = 1
  · simp [h1]
  · rw [if_neg h1, if_neg h1,
      foldl_add_eq_sum (fun σ => prodSel d (signOf σ) (selPairs (detN d) σ)), zero_add]
    have hterm : ∀ σ : List ℕ, prodSel d (signOf σ) (selPairs (detN d) σ) = leibnizTerm d σ := by
      intro σ
      rw [prodSel_eq, leibnizTerm, signOf, elements_inverse_number_eq]
      by_cases ha : ((selPairs (detN d) σ).any fun p => decide (elem d p.1 p.2 = 0)) = true
      · simp [ha]
      · simp only [Bool.not_eq_true] at ha
        simp [ha]
    rw [List.map_congr_left (fun σ _ => hterm σ)]
    exact ((permsLex_perm_permutations _ (List.nodup_range' 1 (detN d) 1 one_pos)).map
      (leibnizTerm d)).sum_eq

/-- C2 (code divergence): on the order-2 determinant with rows
`(0 1; 1 0)`, `general_calculate()` returns `-1` but
`elimination_calculate()` returns `+1`: the elimination swaps two rows to
fix the zero pivot, and the product of the diagonal never accounts for the
sign flip a row exchange causes. -/
theorem elimination_calculate_sign_divergence :
    general_calculate dSwap = -1 ∧ elimination_calculate dSwap = 1 := by
  constructor
  · norm_num [general_calculate, dSwap, detN, permsLex, permsLexAux, prodSel, signOf,
      elements_inverse_number, einvAux, inverse_number, selPairs, elem, List.range']
  · norm_num [elimination_calculate, elimination, elimLoop, pivotFix, elimStepRows, dSwap,
      detN, elem, swap_row, set_row, set_elementG, setElem, get_rowI, seqAdd, seqMul,
      List.range', List.find?]


/-- Bridge: for an in-range 1-based cell of a well-formed table (of
realistic size), the faithful `get_element` returns the internal accessor's
value. -/
theorem get_element_in_range (t : Table ℚ) (ht : t.wf) (hsmall : t.M * t.N < SZ) (i j : ℕ)
    (hi1 : 1 ≤ i) (hi2 : i ≤ t.M) (hj1 : 1 ≤ j) (hj2 : j ≤ t.N) :
    get_element t i j = some (some (elem t i j)) := by
  have hMpos : 1 ≤ t.M := le_trans hi1 hi2
  have hiSZ : i < SZ := by
    have : i ≤ t.M * t.N := le_trans hi2 (Nat.le_mul_of_pos_right t.M (by omega))
    omega
  have hjSZ : j < SZ := by
    have : t.N ≤ t.M * t.N := Nat.le_mul_of_pos_left t.N hMpos
    omega
  have hszi : szSub1 i = i - 1 := by
    rw [szSub1]
    have h1 : i + (SZ - 1) = SZ + (i - 1) := by
      have : 1 ≤ SZ := by norm_num [SZ]
      omega
    rw [h1, Nat.add_mod_left, Nat.mod_eq_of_lt (by omega)]
  have hszj : szSub1 j = j - 1 := by
    rw [szSub1]
    have h1 : j + (SZ - 1) = SZ + (j - 1) := by
      have : 1 ≤ SZ := by norm_num [SZ]
      omega
    rw [h1, Nat.add_mod_left, Nat.mod_eq_of_lt (by omega)]
  have hlt : (j - 1) * t.M + (i - 1) < t.M * t.N := flatIdx_lt t.M t.N i j hi1 hi2 hj1 hj2
  rw [get_element, if_neg (by omega), hszi, hszj, Nat.mod_eq_of_lt (by omega)]
  have hidx : (j - 1) * t.M + (i - 1) < t.data.length := by rw [ht]; exact hlt
  rw [List.get?_eq_getElem?, List.getElem?_eq_getElem hidx]
  rw [elem, List.getD_eq_getElem?_getD, List.getElem?_eq_getElem hidx, Option.getD_some]

/-- Bridge: for an in-range 1-based cell of a well-formed table (of
realistic size), the faithful `set_element` performs the internal write. -/
theorem set_element_in_range (t : Table ℚ) (ht : t.wf) (hsmall : t.M * t.N < SZ) (i j : ℕ)
    (v : ℚ) (hi1 : 1 ≤ i) (hi2 : i ≤ t.M) (hj1 : 1 ≤ j) (hj2 : j ≤ t.N) :
    set_element t i j v = some (setElem t i j v) := by
  have hMpos : 1 ≤ t.M := le_trans hi1 hi2
  have hiSZ : i < SZ := by
    have : i ≤ t.M * t.N := le_trans hi2 (Nat.le_mul_of_pos_right t.M (by omega))
    omega
  have hjSZ : j < SZ := by
    have : t.N ≤ t.M * t.N := Nat.le_mul_of_pos_left t.N hMpos
    omega
  have hszi : szSub1 i = i - 1 := by
    rw [szSub1]
    have h1 : i + (SZ - 1) = SZ + (i - 1) := by
      have : 1 ≤ SZ := by norm_num [SZ]
      omega
    rw [h1, Nat.add_mod_left, Nat.mod_eq_of_lt (by omega)]
  have hszj : szSub1 j = j - 1 := by
    rw [szSub1]
    have h1 : j + (SZ - 1) = SZ + (j - 1) := by
      have : 1 ≤ SZ := by norm_num [SZ]
      omega
    rw [h1, Nat.add_mod_left, Nat.mod_eq_of_lt (by omega)]
  have hlt : (j - 1) * t.M + (i - 1) < t.M * t.N := flatIdx_lt t.M t.N i j hi1 hi2 hj1 hj2
  rw [set_element, if_neg (by omega)]
  simp only [hszi, hszj, Nat.mod_eq_of_lt (show (j - 1) * t.M + (i - 1) < SZ by omega)]
  rw [if_pos (by rw [ht]; exact hlt)]
  rfl

/-- C3 (counterexample): on the 2×2 matrix `(1 2; 3 4)`, the code's
adjoint holds `3` at cell `(1, 2)` — the bare minor — while the claim's
cofactor value `(−1)^(1+2) · minor` is `−3`; the claim is false at this
input. -/
theorem adjoint_sign_counterexample :
    adjoint mA = some (some mAdjA) ∧ cofactorValue (detOf mA) 1 2 = some (-3) ∧
      elem mAdjA 1 2 = 3 ∧ (3 : ℚ) ≠ -3 := by
  refine ⟨?_, ?_, ?_, by norm_num⟩
  · norm_num [adjoint, mA, mAdjA, matrix_det, detOf, adjointAux, cellPairs, m_i_j, mijBody,
      detN, detMkZero, general_calculate, elem, set_elementG, setElem, set_row, get_rowI,
      permsLex, permsLexAux, prodSel, signOf, elements_inverse_number, einvAux,
      inverse_number, selPairs, List.range', List.replicate, List.set]
  · norm_num [cofactorValue, mA, matrix_det, detOf, m_i_j, mijBody, detN, detMkZero,
      general_calculate, elem, set_elementG, setElem, set_row, get_rowI, permsLex,
      permsLexAux, prodSel, signOf, elements_inverse_number, einvAux, inverse_number,
      selPairs, List.range', List.replicate, List.set]
  · norm_num [elem, mAdjA]

/-- Witness for `adjoint_unsigned_minors` at the concrete matrix
`(1 2; 3 4)` and cell `(1, 2)`. -/
theorem adjoint_unsigned_minors_witness :
    ∃ res, adjoint mA = some (some res) ∧ res.M = mA.M ∧ res.N = mA.N ∧
      (m_i_j (detOf mA) 1 2).map general_calculate = some (elem res 1 2) :=
  adjoint_unsigned_minors mA 1 2 (by decide) (by decide) (by decide) (by decide)
    (by decide) (by decide)

/-- C4 (code divergence): the all-ones 2×2 matrix is square with
determinant value `0`, yet `inverse()` has no zero test: it evaluates
`adjoint_matrix * (1 / 0)` — with `double` this builds a PRESENT matrix of
non-finite values instead of the absent result the claim (and the
function's own documentation) promises. In the exact embedding the
division-by-zero execution is the non-returning outcome `none`, which in
particular is not the absent result `some none`. -/
theorem inverse_zero_det_divergence :
    general_calculate (detOf mOnes) = 0 ∧ matrix_inverse mOnes = none ∧
      matrix_inverse mOnes ≠ some none := by
  refine ⟨?_, ?_, ?_⟩
  · norm_num [mOnes, matrix_det, detOf, detN, detMkZero, general_calculate, elem,
      set_elementG, setElem, set_row, get_rowI, permsLex, permsLexAux, prodSel, signOf,
      elements_inverse_number, einvAux, inverse_number, selPairs, List.range',
      List.replicate, List.set]
  · norm_num [matrix_inverse, mOnes, matrix_det, detOf, adjoint, adjointAux, cellPairs,
      m_i_j, mijBody, detN, detMkZero, general_calculate, elem, set_elementG, setElem,
      set_row, get_rowI, permsLex, permsLexAux, prodSel, signOf, elements_inverse_number,
      einvAux, inverse_number, selPairs, List.range', List.replicate, List.set]
  · norm_num [matrix_inverse, mOnes, matrix_det, detOf, adjoint, adjointAux, cellPairs,
      m_i_j, mijBody, detN, detMkZero, general_calculate, elem, set_elementG, setElem,
      set_row, get_rowI, permsLex, permsLexAux, prodSel, signOf, elements_inverse_number,
      einvAux, inverse_number, selPairs, List.range', List.replicate, List.set]
    decide

/-- C5 (code divergence): on the determinant with rows `(0 1; 0 2)` the
pivot column below the pivot is zero (`elem 2 1 = 0`), so the claimed
column scan would find nothing and leave the table unchanged; the code
instead tests `get_element(r1, r2)` — the pivot ROW — finds the `1` at
`(1, 2)`, and swaps the two rows. -/
theorem elimination_row_scan_divergence :
    elem dZeroCol 2 1 = 0 ∧ elimination dZeroCol = ⟨2, 2, [0, 0, 2, 1]⟩ ∧
      (⟨2, 2, [0, 0, 2, 1]⟩ : Det) ≠ dZeroCol := by
  refine ⟨by norm_num [elem, dZeroCol], ?_, by simp [dZeroCol]⟩
  norm_num [elimination, dZeroCol, elimLoop, pivotFix, elimStepRows, detN, elem, swap_row,
    set_row, set_elementG, setElem, get_rowI, seqAdd, seqMul, List.range', List.find?]

/-- C6 (code divergence): on the two-equation system `x + y = 1`,
`x + y = 2` the coefficient matrix is square and singular; instead of
abandoning the solve with an empty solution vector, `calculate_inverse()`
reaches the unchecked `1 / 0` inside `inverse()` (with `double`: stores a
vector of non-finite garbage; in the exact embedding the execution does
not return normally). -/
theorem calculate_inverse_singular_divergence :
    leSingular.data.M = 2 ∧ calculate_inverse leSingular = none := by
  refine ⟨by norm_num [leSingular], ?_⟩
  norm_num [calculate_inverse, leSingular, tableMk, get_column, get_columnI, set_column,
    matrix_inverse, matrix_det, detOf, adjoint, adjointAux, cellPairs, m_i_j, mijBody, detN,
    detMkZero, general_calculate, elem, set_elementG, setElem, set_row, get_rowI, permsLex,
    permsLexAux, prodSel, signOf, elements_inverse_number, einvAux, inverse_number,
    selPairs, List.range', List.replicate, List.set]

/-- C7 (code divergence): with the two unknowns `[3, 4]` computed, the
guard `n >= _x.size()` makes `x_n(2)` — the topmost valid 1-based index —
return the empty optional, while `x_n(1)` still works; the claim promises
the 2nd unknown at index 2. -/
theorem x_n_top_index_divergence :
    leSolved.x.length = 2 ∧ x_n leSolved 2 = some none ∧ x_n leSolved 1 = some (some 3) := by
  refine ⟨by norm_num [leSolved], by norm_num [x_n, leSolved], ?_⟩
  norm_num [x_n, leSolved, szSub1, SZ]

/-- C8 (counterexample): on a 3×3 table, row index `0` is outside `[1, 3]`
yet `get_element(0, 2)` is NOT absent — the `size_t` decrement wraps and
the read aliases cell `(3, 1)`, returning the present value `3` — and
`set_element(0, 2, 99)` is NOT a no-op: it overwrites that aliased cell. -/
theorem get_set_element_zero_index_counterexample :
    get_element t33 0 2 = some (some 3) ∧ set_element t33 0 2 99 ≠ some t33 := by
  constructor
  · norm_num [get_element, t33, szSub1, SZ]
  · norm_num [set_element, t33, szSub1, SZ]

/-- C8 (amended): the out-of-range discipline the table actually
implements is upper-bound-only — whenever `row > M` or `col > N`,
`get_element` returns the absent optional and `set_element` leaves the
table unchanged. (Index 0 is not rejected; see the counterexample.) -/
theorem get_set_element_upper_bound (t : Table ℚ) (row col : ℕ) (v : ℚ)
    (h : row > t.M ∨ col > t.N) :
    get_element t row col = some none ∧ set_element t row col v = some t := by
  constructor
  · rw [get_element, if_pos h]
  · rw [set_element, if_pos h]

/-- Witness for `get_set_element_upper_bound` at the 3×3 table and
row 4. -/
theorem get_set_element_upper_bound_witness :
    get_element t33 4 1 = some none ∧ set_element t33 4 1 99 = some t33 :=
  get_set_element_upper_bound t33 4 1 99 (Or.inl (by decide))

/-- C9 (code divergence): on a 2×3 table, column 3 is a valid column index
(`3 ≤ N = 3`) and the supplied sequence has the matching length `M = 2`,
yet `set_column(3, [9, 9])` changes nothing: its guard compares the column
index against the ROW count (`3 > M = 2`) instead of the column count. -/
theorem set_column_wrong_guard_divergence :
    t23.N = 3 ∧ ([9, 9] : List ℚ).length = t23.M ∧ set_column t23 3 [9, 9] = t23 := by
  refine ⟨by norm_num [t23], by norm_num [t23], ?_⟩
  norm_num [set_column, t23]

/-- C10: default-constructing a `linear_equations` passes `M = 1, N = 0`
to the table constructor, which unconditionally raises the zero-dimension
error — the error branch of default construction is always reached. -/
theorem linear_equations_default_throws : linear_equations_default = none := by
  norm_num [linear_equations_default, tableMk]

end CppMath
